import Mathlib

/-!
Shallow embedding of the fractal-computation core of the
Complex-Fractal-Renderer repository (src/src/complex/complex.cpp,
src/src/fractals/fractals.cpp, src/src/fractal_renderer/fractal_renderer.cpp),
together with theorems settling the frozen claims about it.

Numeric modelling: the C++ code computes with `long double` / `double` /
`float`.  The embedding idealises these as exact rationals (`ℚ`); machine
`unsigned int` arithmetic is modelled as natural-number arithmetic modulo
`2 ^ 32` exactly where the source wraps.  The one place where IEEE special
values matter (a zero denominator in `Complex::operator/`, reachable from
Newton's method) is modelled explicitly with an absorbing `none` state, see
`cdiv` below.
-/

namespace CFR

/-- Packed RGB colour, from `colour.h` (`unsigned char r, g, b`). -/
structure colour where
  r : Nat
  g : Nat
  b : Nat
deriving DecidableEq, Repr

/-- Interior / non-escaping sentinel colour, `BLACK = colour{0, 0, 0}`. -/
def BLACK : colour := ⟨0, 0, 0⟩

/-- The complex value type of `complex.hpp`: two high-precision real
components.  `long double` components are idealised as exact rationals. -/
structure Complex where
  re : ℚ
  im : ℚ
deriving DecidableEq, Repr

namespace Complex

/-- Embedding of `Complex()` — the default constructor, `re = 0, im = 0`. -/
def zero : Complex := ⟨0, 0⟩

instance : Add Complex := ⟨fun z w => ⟨z.re + w.re, z.im + w.im⟩⟩

instance : Sub Complex := ⟨fun z w => ⟨z.re - w.re, z.im - w.im⟩⟩

/-- Embedding of `Complex::operator*`: `(re·w.re − im·w.im, re·w.im + im·w.re)`. -/
instance : Mul Complex := ⟨fun z w => ⟨z.re * w.re - z.im * w.im, z.re * w.im + z.im * w.re⟩⟩

/-- Embedding of `Complex::conj`. -/
def conj (z : Complex) : Complex := ⟨z.re, -z.im⟩

/-- Embedding of `Complex::magSq`: `re·re + im·im`. -/
def magSq (z : Complex) : ℚ := z.re * z.re + z.im * z.im

/-- Scalar subtraction `Complex::operator-(long double)`: `(re − s, im)`. -/
def subScalar (z : Complex) (s : ℚ) : Complex := ⟨z.re - s, z.im⟩

/-- Scalar multiplication `Complex::operator*(long double)`: `(re·s, im·s)`. -/
def mulScalar (z : Complex) (s : ℚ) : Complex := ⟨z.re * s, z.im * s⟩

/-- Embedding of `Complex::operator/`, which computes
`((re·w.re + im·w.im)/denom, (im·w.re − re·w.im)/denom)` with
`denom = w.re² + w.im²`.  When `denom = 0`, every IEEE outcome of the
quotient is non-finite (`±inf` or `NaN`); non-finite values are absorbing
under the arithmetic that follows in this program and fail every `<`
comparison against a finite tolerance.  The embedding makes this explicit:
`none` models a non-finite result, `some` the exact finite quotient. -/
def cdiv (z w : Complex) : Option Complex :=
  let denom := w.re * w.re + w.im * w.im
  if denom = 0 then none
  else some ⟨(z.re * w.re + z.im * w.im) / denom, (z.im * w.re - z.re * w.im) / denom⟩

@[simp] theorem add_def (z w : Complex) :
    z + w = ⟨z.re + w.re, z.im + w.im⟩ := rfl

@[simp] theorem sub_def (z w : Complex) :
    z - w = ⟨z.re - w.re, z.im - w.im⟩ := rfl

@[simp] theorem mul_def (z w : Complex) :
    z * w = ⟨z.re * w.re - z.im * w.im, z.re * w.im + z.im * w.re⟩ := rfl

end Complex

/-- Constant `PERIODICITY_ITERATION = 20`. -/
def PERIODICITY_ITERATION : Nat := 20

/-- Constant `PERIODICITY_EPSILON = 1e-8` (the `float` literal, idealised as the
decimal value it denotes). -/
def PERIODICITY_EPSILON : ℚ := 1 / 100000000

/-- Embedding of `screenToFractal` from `fractals.cpp`:
`real = (px - halfWinWidth) * fractalWidthRatio + offsetX`,
`imag = (halfWinHeight - py) * fractalHeightRatio + offsetY`.
Pixel coordinates are `unsigned int`, modelled as `Nat` cast into `ℚ`. -/
def screenToFractal (px py : Nat) (halfWinWidth halfWinHeight : ℚ)
    (fractalWidthRatio fractalHeightRatio : ℚ) (offsetX offsetY : ℚ) : Complex :=
  ⟨(px - halfWinWidth) * fractalWidthRatio + offsetX,
   (halfWinHeight - py) * fractalHeightRatio + offsetY⟩

/-- C++ conversion of a nonnegative floating value to `unsigned int`:
truncation toward zero (for the values arising in the round-trip claim the
argument is a nonnegative integer; negative arguments are UB in C++ and out
of the claims' scope). -/
def toUInt (q : ℚ) : Nat := (⌊q⌋).toNat

/-- Embedding of `fractalToScreen` from `fractals.cpp`:
`px = (z.real() - offsetX) / fractalWidthRatio + halfWinWidth`,
`py = (-z.imag() + offsetY) / fractalHeightRatio + halfWinHeight`,
both converted to `unsigned int`. -/
def fractalToScreen (z : Complex) (halfWinWidth halfWinHeight : ℚ)
    (fractalWidthRatio fractalHeightRatio : ℚ) (offsetX offsetY : ℚ) : Nat × Nat :=
  (toUInt ((z.re - offsetX) / fractalWidthRatio + halfWinWidth),
   toUInt ((-z.im + offsetY) / fractalHeightRatio + halfWinHeight))

/-- Modulus of C++ `unsigned int` arithmetic. -/
def UINT_MOD : Nat := 2 ^ 32

/-- Embedding of `std::clamp(v, lo, hi)`: `v < lo ? lo : hi < v ? hi : v`. -/
def stdClamp (v lo hi : Nat) : Nat :=
  if v < lo then lo else if hi < v then hi else v

/-- Embedding of `calculateIterations` from `fractals.cpp`:
`std::clamp<unsigned int>(numZooms * iterationIncrement + initialIterations, 1, maxIterations)`.
All operands are `unsigned int`, so the product-sum wraps modulo `2^32`. -/
def calculateIterations (numZooms initialIterations iterationIncrement maxIterations : Nat) : Nat :=
  stdClamp ((numZooms * iterationIncrement + initialIterations) % UINT_MOD) 1 maxIterations

/-- Embedding of `checkPeriodicity` from `fractals.cpp`: squared distance, dot-product
deviation from 1 and cross product all below `PERIODICITY_EPSILON`. -/
def checkPeriodicity (z prevZ : Complex) : Bool :=
  let deltaMagSq := Complex.magSq (z - prevZ)
  let dot := z.re * prevZ.re + z.im * prevZ.im
  let cross := z.re * prevZ.im - z.im * prevZ.re
  decide (deltaMagSq < PERIODICITY_EPSILON) &&
    decide (|dot - 1| < PERIODICITY_EPSILON) &&
    decide (|cross| < PERIODICITY_EPSILON)

/-- Outcome of one escape-time evaluation: the source either returns
`colourGradient(i, maxIterations)` (marked `escaped i`) or `BLACK`
(marked `interior`). -/
inductive EscapeResult where
  | interior
  | escaped (i : Nat)
deriving DecidableEq, Repr

/-- Rendering of an `EscapeResult` to a colour, exactly as the two return
sites of the source loops do; `cg` stands for `colourGradient`, whose body
lives in the colour-mapper unit. -/
def renderResult (cg : Nat → Nat → colour) (maxIterations : Nat) : EscapeResult → colour
  | .interior => BLACK
  | .escaped i => cg i maxIterations

/-- The common escape-time loop of `processMandelbrot` / `processTricorn` /
`processBurningShip`, abstracted over the one line that differs (the orbit
update `step`).  `fuel` is the number of remaining loop iterations
(`maxIterations - i`); `i` is the loop counter; `z`, `prevZ` the loop
state.  Each iteration updates `z`, tests `magSq(z) > 4.0` (returning the
gradient index `i`), and every `PERIODICITY_ITERATION` iterations runs the
periodicity check (returning interior) and records `prevZ`. -/
def escapeLoop (step : Complex → Complex) : Nat → Nat → Complex → Complex → EscapeResult
  | 0, _, _, _ => .interior
  | fuel + 1, i, z, prevZ =>
    let z' := step z
    if 4 < Complex.magSq z' then .escaped i
    else if i % PERIODICITY_ITERATION = 0 then
      if checkPeriodicity z' prevZ then .interior
      else escapeLoop step fuel (i + 1) z' z'
    else escapeLoop step fuel (i + 1) z' prevZ

/-- Orbit of `step` started from `Complex() = 0`, the `z` sequence of the
source loops: `orbitFrom step n` is the value of `z` after `n` updates. -/
def orbitFrom (step : Complex → Complex) : Nat → Complex
  | 0 => Complex.zero
  | n + 1 => step (orbitFrom step n)

/-- Orbit update of `processMandelbrot`: `z = z * z + c`. -/
def mandelStep (c z : Complex) : Complex := z * z + c

/-- Orbit update of `processTricorn`: `zConj = conj(z); z = zConj * zConj + c`. -/
def tricornStep (c z : Complex) : Complex :=
  Complex.conj z * Complex.conj z + c

/-- Orbit update of `processBurningShip` (after `c` has been reflected):
`z = Complex(|Re z|, |Im z|) * Complex(|Re z|, |Im z|) + c`. -/
def burningShipStep (c z : Complex) : Complex :=
  Complex.mk |z.re| |z.im| * Complex.mk |z.re| |z.im| + c

/-- Embedding of `processMandelbrot` up to the colour map: the main-cardioid and
period-2-bulb short-circuits, then the escape loop with step `z² + c`. -/
def processMandelbrotR (c : Complex) (maxIterations : Nat) : EscapeResult :=
  let reMinusQuarter := c.re - 1/4
  let imSquared := c.im * c.im
  let q := reMinusQuarter * reMinusQuarter + imSquared
  if q * (q + reMinusQuarter) ≤ 1/4 * imSquared then .interior
  else if (c.re + 1) * (c.re + 1) + imSquared ≤ 1/16 then .interior
  else escapeLoop (mandelStep c) maxIterations 0 Complex.zero Complex.zero

/-- Embedding of `processMandelbrot` proper: outcome rendered through `colourGradient`
(`cg`) and `BLACK`. -/
def processMandelbrot (cg : Nat → Nat → colour) (c : Complex) (maxIterations : Nat) : colour :=
  renderResult cg maxIterations (processMandelbrotR c maxIterations)

/-- Embedding of `processTricorn` up to the colour map. -/
def processTricornR (c : Complex) (maxIterations : Nat) : EscapeResult :=
  escapeLoop (tricornStep c) maxIterations 0 Complex.zero Complex.zero

/-- Embedding of `processTricorn` proper. -/
def processTricorn (cg : Nat → Nat → colour) (c : Complex) (maxIterations : Nat) : colour :=
  renderResult cg maxIterations (processTricornR c maxIterations)

/-- Embedding of `processBurningShip` up to the colour map: `c = Complex::conj(c)` once
("reflect in real axis"), then the escape loop with the absolute-component
step. -/
def processBurningShipR (c : Complex) (maxIterations : Nat) : EscapeResult :=
  escapeLoop (burningShipStep (Complex.conj c)) maxIterations 0 Complex.zero Complex.zero

/-- Embedding of `processBurningShip` proper. -/
def processBurningShip (cg : Nat → Nat → colour) (c : Complex) (maxIterations : Nat) : colour :=
  renderResult cg maxIterations (processBurningShipR c maxIterations)

/-- Loop of `calcTrajectoryBurningShip` (the `c` argument is already the
reflected `Complex::conj(c)`): update `z` by the absolute-component step,
`push_back(Complex::conj(z))`, `break` once `magSq(z) > 4.0`. -/
def bsTrajLoop (c : Complex) : Nat → Complex → List Complex
  | 0, _ => []
  | fuel + 1, z =>
    let z' := burningShipStep c z
    if 4 < Complex.magSq z' then [Complex.conj z']
    else Complex.conj z' :: bsTrajLoop c fuel z'

/-- Embedding of `calcTrajectoryBurningShip` from `fractals.cpp`. -/
def calcTrajectoryBurningShip (c : Complex) (maxIterations : Nat) : List Complex :=
  bsTrajLoop (Complex.conj c) maxIterations Complex.zero

/-- Constant `NEWTON_FRACTAL_EPSILON = 1e-6`. -/
def NEWTON_FRACTAL_EPSILON : ℚ := 1 / 1000000

/-- Root table `NEWTON_FRACTAL_ROOTS`: `{1, −0.5 + i·sqrt(3)/2, −0.5 − i·sqrt(3)/2}`.
`sqrt(3)/2` is irrational; the source stores its floating approximation, so
the embedding takes that stored value as a parameter `s`. -/
def NEWTON_FRACTAL_ROOTS (s : ℚ) : List Complex :=
  [⟨1, 0⟩, ⟨-1/2, s⟩, ⟨-1/2, -s⟩]

/-- Colour table `NEWTON_FRACTAL_COLOURS`: red, green, blue. -/
def NEWTON_FRACTAL_COLOURS : List colour :=
  [⟨255, 0, 0⟩, ⟨0, 255, 0⟩, ⟨0, 0, 255⟩]

/-- One Newton update, `z -= fz / fzPrime` with `fz = z³ − 1`,
`fzPrime = 3z²`, through `Complex::operator/` (`cdiv`): a zero denominator
(e.g. at `z = 0`) yields the non-finite absorbing state `none`. -/
def newtonStep (z : Complex) : Option Complex :=
  let zSquared := z * z
  let zCubed := zSquared * z
  let fz := Complex.subScalar zCubed 1
  let fzPrime := Complex.mulScalar zSquared 3
  (Complex.cdiv fz fzPrime).map (fun q => z - q)

/-- The per-iteration root-proximity scan of `processNewtonFractal`:
component-wise distance below `NEWTON_FRACTAL_EPSILON` against each of the
three roots, in order.  A non-finite `z` (IEEE `NaN`/`inf`) fails every
comparison, so the scan yields nothing. -/
def findNewtonRoot (s : ℚ) : Option Complex → Option colour
  | none => none
  | some z =>
    ((NEWTON_FRACTAL_ROOTS s).zip NEWTON_FRACTAL_COLOURS).findSome?
      (fun rc =>
        if |z.re - rc.1.re| < NEWTON_FRACTAL_EPSILON ∧
            |z.im - rc.1.im| < NEWTON_FRACTAL_EPSILON then some rc.2 else none)

/-- Loop of `processNewtonFractal`: Newton update, then the root scan;
falls through to `BLACK` when the budget is exhausted.  The state is
`none` once any update produced a non-finite value. -/
def newtonLoop (s : ℚ) : Nat → Option Complex → colour
  | 0, _ => BLACK
  | fuel + 1, st =>
    let st' := st.bind newtonStep
    match findNewtonRoot s st' with
    | some col => col
    | none => newtonLoop s fuel st'

/-- Embedding of `processNewtonFractal` from `fractals.cpp` (`s` is the stored
floating-point approximation of `sqrt(3)/2` in the root table). -/
def processNewtonFractal (s : ℚ) (z : Complex) (maxIterations : Nat) : colour :=
  newtonLoop s maxIterations (some z)

/-- Constant `MIN_REAL = -2.5` (a `float`, exactly representable). -/
def MIN_REAL : ℚ := -5/2

/-- Constant `MAX_REAL = 2.5`. -/
def MAX_REAL : ℚ := 5/2

/-- Constant `MIN_IMAG = -2.5`. -/
def MIN_IMAG : ℚ := -5/2

/-- Constant `MAX_IMAG = 2.5`. -/
def MAX_IMAG : ℚ := 5/2

/-- Embedding of `FractalRenderer::setFractalOffset`: the stored pan offset after the
call, `offsetX = fmin(fmax(real, MIN_REAL), MAX_REAL)` and
`offsetY = fmin(fmax(imag, MIN_IMAG), MAX_IMAG)`. -/
def setFractalOffset (real imag : ℚ) : ℚ × ℚ :=
  (min (max real MIN_REAL) MAX_REAL, min (max imag MIN_IMAG) MAX_IMAG)

/-- The mathematical reading of the claimed budget formula
`clamp(numZooms * iterationIncrement + initialIterations, 1, maxIterations)`
over unbounded integers (no `unsigned int` wrap-around), for comparison
with `calculateIterations`. -/
def claimedIterations (numZooms initialIterations iterationIncrement maxIterations : Nat) : Nat :=
  stdClamp (numZooms * iterationIncrement + initialIterations) 1 maxIterations

theorem newtonLoop_none (s : ℚ) : ∀ fuel, newtonLoop s fuel none = BLACK
  | 0 => rfl
  | fuel + 1 => by
    show newtonLoop s fuel (Option.bind none newtonStep) = BLACK
    exact newtonLoop_none s fuel

theorem stdClamp_mono {v v' lo hi : Nat} (hlohi : lo ≤ hi) (h : v ≤ v') :
    stdClamp v lo hi ≤ stdClamp v' lo hi := by
  unfold stdClamp
  split_ifs <;> omega

/-- C10: `setFractalOffset` stores a clamped pan offset — for every
requested target the stored `offsetX` lies in `[MIN_REAL, MAX_REAL] =
[-2.5, 2.5]` and the stored `offsetY` lies in `[MIN_IMAG, MAX_IMAG] =
[-2.5, 2.5]`, out-of-range targets saturating at the boundary. -/
theorem setFractalOffset_clamped (real imag : ℚ) :
    MIN_REAL ≤ (setFractalOffset real imag).1 ∧ (setFractalOffset real imag).1 ≤ MAX_REAL ∧
    MIN_IMAG ≤ (setFractalOffset real imag).2 ∧ (setFractalOffset real imag).2 ≤ MAX_IMAG := by
  refine ⟨?_, ?_, ?_, ?_⟩
  · exact le_min (le_max_right _ _) (by norm_num [MIN_REAL, MAX_REAL])
  · exact min_le_right _ _
  · exact le_min (le_max_right _ _) (by norm_num [MIN_IMAG, MAX_IMAG])
  · exact min_le_right _ _

/-- C5: a zero denominator in the Newton step (`3z² = 0`, reached from the
pixel value `z = 0`) makes the step produce the non-finite absorbing state,
every root-proximity comparison fails from then on, and
`processNewtonFractal` falls through to the interior colour `BLACK` for
every budget — no fault is propagated. -/
theorem processNewtonFractal_zero_denominator (s : ℚ) (maxIterations : Nat) :
    newtonStep ⟨0, 0⟩ = none ∧
    processNewtonFractal s ⟨0, 0⟩ maxIterations = BLACK := by
  have hstep : newtonStep ⟨0, 0⟩ = none := by
    simp [newtonStep, Complex.cdiv, Complex.mulScalar, Complex.subScalar]
  refine ⟨hstep, ?_⟩
  cases maxIterations with
  | zero => rfl
  | succ fuel =>
    show newtonLoop s (fuel + 1) (some ⟨0, 0⟩) = BLACK
    have : Option.bind (some (Complex.mk 0 0)) newtonStep = none := by
      simpa using hstep
    simp only [newtonLoop, this]
    exact newtonLoop_none s fuel

/-- C3 counterexample: `calculateIterations` computes the clamp of the
`unsigned int` (mod `2^32`) value of `numZooms * iterationIncrement +
initialIterations`, not of its mathematical value.  At `numZooms =
107374183`, `initial = 96`, `increment = 40`, `cap = 10000` the product
wraps and the code yields `120` where the claimed formula yields `10000`;
together with `numZooms = 250` (result `10000`) this also violates
monotonicity in the number of zoom steps. -/
theorem calculateIterations_overflow_counterexample :
    calculateIterations 107374183 96 40 10000 = 120 ∧
    claimedIterations 107374183 96 40 10000 = 10000 ∧
    calculateIterations 250 96 40 10000 = 10000 ∧
    250 < 107374183 ∧
    calculateIterations 107374183 96 40 10000 < calculateIterations 250 96 40 10000 := by
  refine ⟨?_, by decide, ?_, by decide, ?_⟩ <;>
    simp [calculateIterations, claimedIterations, stdClamp, UINT_MOD]

/-- C3 (amended): `calculateIterations` equals the clamp to `[1, cap]` of
`(numZooms * increment + initial) mod 2^32`; whenever the product-sum does
not overflow `unsigned int` it agrees with the claimed mathematical clamp
and is monotone in the number of zoom steps; and for every input the result
lies in `[1, cap]` provided `cap ≥ 1` (in particular it never underflows
`1`, also for wrapped-around negative zoom counts). -/
theorem calculateIterations_clamped (numZooms initialIterations iterationIncrement maxIterations : Nat) :
    (1 ≤ maxIterations →
      1 ≤ calculateIterations numZooms initialIterations iterationIncrement maxIterations ∧
      calculateIterations numZooms initialIterations iterationIncrement maxIterations ≤ maxIterations) ∧
    (numZooms * iterationIncrement + initialIterations < UINT_MOD →
      calculateIterations numZooms initialIterations iterationIncrement maxIterations =
        claimedIterations numZooms initialIterations iterationIncrement maxIterations) ∧
    (∀ numZooms', 1 ≤ maxIterations → numZooms ≤ numZooms' →
      numZooms' * iterationIncrement + initialIterations < UINT_MOD →
      calculateIterations numZooms initialIterations iterationIncrement maxIterations ≤
        calculateIterations numZooms' initialIterations iterationIncrement maxIterations) := by
  refine ⟨fun hcap => ?_, fun hlt => ?_, fun numZooms' hcap hle hlt => ?_⟩
  · unfold calculateIterations stdClamp
    split_ifs <;> omega
  · unfold calculateIterations claimedIterations
    rw [Nat.mod_eq_of_lt hlt]
  · unfold calculateIterations
    have h1 : numZooms * iterationIncrement + initialIterations < UINT_MOD := by
      have : numZooms * iterationIncrement ≤ numZooms' * iterationIncrement :=
        Nat.mul_le_mul_right _ hle
      omega
    rw [Nat.mod_eq_of_lt h1, Nat.mod_eq_of_lt hlt]
    exact stdClamp_mono hcap (by
      have : numZooms * iterationIncrement ≤ numZooms' * iterationIncrement :=
        Nat.mul_le_mul_right _ hle
      omega)

/-- C3 witness: the amended statement evaluated at a concrete input. -/
theorem calculateIterations_clamped_witness :
    (1 ≤ 10000 ∧
      1 ≤ calculateIterations 3 96 40 10000 ∧ calculateIterations 3 96 40 10000 ≤ 10000) ∧
    (3 * 40 + 96 < UINT_MOD ∧
      calculateIterations 3 96 40 10000 = claimedIterations 3 96 40 10000) ∧
    (3 ≤ 5 ∧ 5 * 40 + 96 < UINT_MOD ∧
      calculateIterations 3 96 40 10000 ≤ calculateIterations 5 96 40 10000) := by
  have h := calculateIterations_clamped 3 96 40 10000
  exact ⟨⟨by decide, h.1 (by decide)⟩,
    ⟨by decide, h.2.1 (by decide)⟩,
    ⟨by decide, by decide, h.2.2 5 (by decide) (by decide) (by decide)⟩⟩

/-- C7: `screenToFractal` maps pixel `(px, py)` to the complex number with
real part `(px − halfWinWidth)·fractalWidthRatio + offsetX` and imaginary
part `(halfWinHeight − py)·fractalHeightRatio + offsetY`; for a positive
height ratio the imaginary part is antitone in `py`, i.e. image-space y is
inverted relative to the plane's imaginary axis. -/
theorem screenToFractal_formula (px py py' : Nat) (halfWinWidth halfWinHeight : ℚ)
    (fractalWidthRatio fractalHeightRatio : ℚ) (offsetX offsetY : ℚ) :
    (screenToFractal px py halfWinWidth halfWinHeight fractalWidthRatio fractalHeightRatio
        offsetX offsetY).re = (px - halfWinWidth) * fractalWidthRatio + offsetX ∧
    (screenToFractal px py halfWinWidth halfWinHeight fractalWidthRatio fractalHeightRatio
        offsetX offsetY).im = (halfWinHeight - py) * fractalHeightRatio + offsetY ∧
    (0 ≤ fractalHeightRatio → py ≤ py' →
      (screenToFractal px py' halfWinWidth halfWinHeight fractalWidthRatio fractalHeightRatio
          offsetX offsetY).im ≤
        (screenToFractal px py halfWinWidth halfWinHeight fractalWidthRatio fractalHeightRatio
            offsetX offsetY).im) := by
  refine ⟨rfl, rfl, fun hr hle => ?_⟩
  have hq : (py : ℚ) ≤ (py' : ℚ) := by exact_mod_cast hle
  have : halfWinHeight - (py' : ℚ) ≤ halfWinHeight - py := by linarith
  exact add_le_add_right (mul_le_mul_of_nonneg_right this hr) _

/-- C7 witness: the formula and the y-inversion evaluated concretely. -/
theorem screenToFractal_formula_witness :
    (screenToFractal 3 4 2 2 (1/2) (1/4) 1 0).re = ((3 : ℚ) - 2) * (1/2) + 1 ∧
    (screenToFractal 3 4 2 2 (1/2) (1/4) 1 0).im = ((2 : ℚ) - 4) * (1/4) + 0 ∧
    (screenToFractal 3 7 2 2 (1/2) (1/4) 1 0).im ≤ (screenToFractal 3 4 2 2 (1/2) (1/4) 1 0).im := by
  have h := screenToFractal_formula 3 4 7 2 2 (1/2) (1/4) 1 0
  exact ⟨h.1, h.2.1, h.2.2 (by norm_num) (by norm_num)⟩

/-- C8: composing `fractalToScreen` after `screenToFractal` with the same
mapping parameters and non-zero ratios reconstructs the pixel coordinates
exactly in the idealised (exact-rational) arithmetic — in particular within
the claimed 1-unit rounding tolerance. -/
theorem fractalToScreen_roundtrip (px py : Nat) (halfWinWidth halfWinHeight : ℚ)
    (fractalWidthRatio fractalHeightRatio : ℚ) (offsetX offsetY : ℚ)
    (hx : fractalWidthRatio ≠ 0) (hy : fractalHeightRatio ≠ 0) :
    fractalToScreen
      (screenToFractal px py halfWinWidth halfWinHeight fractalWidthRatio fractalHeightRatio
        offsetX offsetY)
      halfWinWidth halfWinHeight fractalWidthRatio fractalHeightRatio offsetX offsetY =
      (px, py) := by
  unfold fractalToScreen screenToFractal toUInt
  have h1 : ((px : ℚ) - halfWinWidth) * fractalWidthRatio + offsetX - offsetX =
      ((px : ℚ) - halfWinWidth) * fractalWidthRatio := by ring
  have h2 : (((px : ℚ) - halfWinWidth) * fractalWidthRatio) / fractalWidthRatio =
      (px : ℚ) - halfWinWidth := mul_div_cancel_right₀ _ hx
  have h3 : -((halfWinHeight - (py : ℚ)) * fractalHeightRatio + offsetY) + offsetY =
      (((py : ℚ) - halfWinHeight) * fractalHeightRatio) := by ring
  have h4 : ((((py : ℚ)) - halfWinHeight) * fractalHeightRatio) / fractalHeightRatio =
      (py : ℚ) - halfWinHeight := mul_div_cancel_right₀ _ hy
  simp only [h1, h2, h3, h4, sub_add_cancel, Int.floor_natCast, Int.toNat_natCast]

/-- C8 witness: the round trip evaluated at a concrete viewport. -/
theorem fractalToScreen_roundtrip_witness :
    fractalToScreen (screenToFractal 13 7 (300 : ℚ) (225 : ℚ) (1/150) (1/150) (1/3) (-2/5))
      (300 : ℚ) (225 : ℚ) (1/150) (1/150) (1/3) (-2/5) = (13, 7) :=
  fractalToScreen_roundtrip 13 7 300 225 (1/150) (1/150) (1/3) (-2/5)
    (by norm_num) (by norm_num)

theorem orbitFrom_succ (step : Complex → Complex) (n : Nat) :
    orbitFrom step (n + 1) = step (orbitFrom step n) := rfl

/-- Soundness of the `escaped` outcome of the shared escape-time loop: when
the loop entered at index `i` with `z = orbitFrom step i` reports escape at
index `j`, then `j` lies in the traversed range, the orbit's squared
magnitude first exceeds `4` exactly at step `j + 1`, and at no earlier
traversed step. -/
theorem escapeLoop_escaped (step : Complex → Complex) :
    ∀ (fuel i : Nat) (prevZ : Complex) (j : Nat),
      escapeLoop step fuel i (orbitFrom step i) prevZ = .escaped j →
      i ≤ j ∧ j < i + fuel ∧ 4 < Complex.magSq (orbitFrom step (j + 1)) ∧
        ∀ k, i ≤ k → k < j → Complex.magSq (orbitFrom step (k + 1)) ≤ 4 := by
  intro fuel
  induction fuel with
  | zero =>
    intro i prevZ j h
    exact absurd h (by simp [escapeLoop])
  | succ fuel ih =>
    intro i prevZ j h
    rw [escapeLoop] at h
    rw [show step (orbitFrom step i) = orbitFrom step (i + 1) from rfl] at h
    by_cases hesc : 4 < Complex.magSq (orbitFrom step (i + 1))
    · rw [if_pos hesc] at h
      cases h
      exact ⟨Nat.le_refl _, by omega, hesc, fun k hk1 hk2 => absurd (Nat.lt_of_le_of_lt hk1 hk2)
        (Nat.lt_irrefl _)⟩
    · rw [if_neg hesc] at h
      have hrest : escapeLoop step fuel (i + 1) (orbitFrom step (i + 1)) (orbitFrom step (i + 1))
            = .escaped j ∨
          escapeLoop step fuel (i + 1) (orbitFrom step (i + 1)) prevZ = .escaped j := by
        by_cases hmod : i % PERIODICITY_ITERATION = 0
        · rw [if_pos hmod] at h
          by_cases hper : checkPeriodicity (orbitFrom step (i + 1)) prevZ
          · rw [if_pos hper] at h; exact absurd h (by simp)
          · rw [if_neg hper] at h; exact Or.inl h
        · rw [if_neg hmod] at h; exact Or.inr h
      have hconc : i + 1 ≤ j ∧ j < i + 1 + fuel ∧ 4 < Complex.magSq (orbitFrom step (j + 1)) ∧
          ∀ k, i + 1 ≤ k → k < j → Complex.magSq (orbitFrom step (k + 1)) ≤ 4 := by
        rcases hrest with h' | h'
        · exact ih (i + 1) _ j h'
        · exact ih (i + 1) _ j h'
      refine ⟨by omega, by omega, hconc.2.2.1, fun k hk1 hk2 => ?_⟩
      rcases Nat.eq_or_lt_of_le hk1 with rfl | hk1'
      · exact le_of_not_lt hesc
      · exact hconc.2.2.2 k hk1' hk2

/-- When the orbit's squared magnitude never exceeds `4` over the traversed
range, the shared escape-time loop reports `interior` (either by budget
exhaustion or by the periodicity early exit). -/
theorem escapeLoop_noescape (step : Complex → Complex) :
    ∀ (fuel i : Nat) (prevZ : Complex),
      (∀ k, i ≤ k → k < i + fuel → Complex.magSq (orbitFrom step (k + 1)) ≤ 4) →
      escapeLoop step fuel i (orbitFrom step i) prevZ = .interior := by
  intro fuel
  induction fuel with
  | zero => intro i prevZ _; rfl
  | succ fuel ih =>
    intro i prevZ hbound
    rw [escapeLoop]
    rw [show step (orbitFrom step i) = orbitFrom step (i + 1) from rfl]
    rw [if_neg (not_lt.2 (hbound i (Nat.le_refl _) (by omega)))]
    by_cases hmod : i % PERIODICITY_ITERATION = 0
    · rw [if_pos hmod]
      by_cases hper : checkPeriodicity (orbitFrom step (i + 1)) prevZ
      · rw [if_pos hper]
      · rw [if_neg hper]
        exact ih (i + 1) _ (fun k hk1 hk2 => hbound k (by omega) (by omega))
    · rw [if_neg hmod]
      exact ih (i + 1) _ (fun k hk1 hk2 => hbound k (by omega) (by omega))

theorem processMandelbrotR_cases (c : Complex) (N : Nat) :
    processMandelbrotR c N = .interior ∨
    processMandelbrotR c N = escapeLoop (mandelStep c) N 0 Complex.zero Complex.zero := by
  unfold processMandelbrotR
  dsimp only
  split_ifs <;> simp

/-- C2: whenever one of the Mandelbrot / Tricorn / Burning Ship evaluators
returns a gradient colour `colourGradient(j, maxIterations)` (`cg j N`), the
index `j` is the first iteration at which the evaluator's orbit's squared
magnitude exceeds `4.0`; when the orbit never exceeds `4.0` within the
budget the evaluator returns the interior sentinel `BLACK`; and for
`c = 2 + 2i` under Mandelbrot with budget `≥ 1` the squared magnitude
exceeds `4` on the first iteration and the returned colour is
`colourGradient(0, maxIterations)`. -/
theorem escape_colour_rule :
    (∀ (cg : Nat → Nat → colour) (c : Complex) (N j : Nat),
        processMandelbrotR c N = .escaped j →
        processMandelbrot cg c N = cg j N ∧ j < N ∧
          4 < Complex.magSq (orbitFrom (mandelStep c) (j + 1)) ∧
          ∀ k, k < j → Complex.magSq (orbitFrom (mandelStep c) (k + 1)) ≤ 4) ∧
    (∀ (cg : Nat → Nat → colour) (c : Complex) (N : Nat),
        (∀ k, k < N → Complex.magSq (orbitFrom (mandelStep c) (k + 1)) ≤ 4) →
        processMandelbrot cg c N = BLACK) ∧
    (∀ (cg : Nat → Nat → colour) (c : Complex) (N j : Nat),
        processTricornR c N = .escaped j →
        processTricorn cg c N = cg j N ∧ j < N ∧
          4 < Complex.magSq (orbitFrom (tricornStep c) (j + 1)) ∧
          ∀ k, k < j → Complex.magSq (orbitFrom (tricornStep c) (k + 1)) ≤ 4) ∧
    (∀ (cg : Nat → Nat → colour) (c : Complex) (N : Nat),
        (∀ k, k < N → Complex.magSq (orbitFrom (tricornStep c) (k + 1)) ≤ 4) →
        processTricorn cg c N = BLACK) ∧
    (∀ (cg : Nat → Nat → colour) (c : Complex) (N j : Nat),
        processBurningShipR c N = .escaped j →
        processBurningShip cg c N = cg j N ∧ j < N ∧
          4 < Complex.magSq (orbitFrom (burningShipStep (Complex.conj c)) (j + 1)) ∧
          ∀ k, k < j →
            Complex.magSq (orbitFrom (burningShipStep (Complex.conj c)) (k + 1)) ≤ 4) ∧
    (∀ (cg : Nat → Nat → colour) (c : Complex) (N : Nat),
        (∀ k, k < N →
          Complex.magSq (orbitFrom (burningShipStep (Complex.conj c)) (k + 1)) ≤ 4) →
        processBurningShip cg c N = BLACK) ∧
    (∀ (cg : Nat → Nat → colour) (N : Nat), 1 ≤ N →
        4 < Complex.magSq (orbitFrom (mandelStep ⟨2, 2⟩) 1) ∧
        processMandelbrot cg ⟨2, 2⟩ N = cg 0 N) := by
  have hmain : ∀ (step : Complex → Complex) (N j : Nat),
      escapeLoop step N 0 Complex.zero Complex.zero = .escaped j →
      j < N ∧ 4 < Complex.magSq (orbitFrom step (j + 1)) ∧
        ∀ k, k < j → Complex.magSq (orbitFrom step (k + 1)) ≤ 4 := by
    intro step N j h
    have h' := escapeLoop_escaped step N 0 Complex.zero j
      (by rw [show orbitFrom step 0 = Complex.zero from rfl]; exact h)
    exact ⟨by omega, h'.2.2.1, fun k hk => h'.2.2.2 k (Nat.zero_le k) hk⟩
  have hquiet : ∀ (step : Complex → Complex) (N : Nat),
      (∀ k, k < N → Complex.magSq (orbitFrom step (k + 1)) ≤ 4) →
      escapeLoop step N 0 Complex.zero Complex.zero = .interior := by
    intro step N hb
    rw [show Complex.zero = orbitFrom step 0 from rfl]
    exact escapeLoop_noescape step N 0 _ (fun k _ hk2 => hb k (by omega))
  refine ⟨?_, ?_, ?_, ?_, ?_, ?_, ?_⟩
  · intro cg c N j h
    have hcol : processMandelbrot cg c N = cg j N := by
      unfold processMandelbrot; rw [h]; rfl
    rcases processMandelbrotR_cases c N with hc | hc
    · rw [h] at hc; exact absurd hc (by simp)
    · exact ⟨hcol, hmain (mandelStep c) N j (hc ▸ h)⟩
  · intro cg c N hb
    unfold processMandelbrot
    rcases processMandelbrotR_cases c N with hc | hc
    · rw [hc]; rfl
    · rw [hc, hquiet (mandelStep c) N hb]; rfl
  · intro cg c N j h
    have hcol : processTricorn cg c N = cg j N := by
      unfold processTricorn; rw [h]; rfl
    exact ⟨hcol, hmain (tricornStep c) N j h⟩
  · intro cg c N hb
    unfold processTricorn processTricornR
    rw [hquiet (tricornStep c) N hb]; rfl
  · intro cg c N j h
    have hcol : processBurningShip cg c N = cg j N := by
      unfold processBurningShip; rw [h]; rfl
    exact ⟨hcol, hmain (burningShipStep (Complex.conj c)) N j h⟩
  · intro cg c N hb
    unfold processBurningShip processBurningShipR
    rw [hquiet (burningShipStep (Complex.conj c)) N hb]; rfl
  · intro cg N hN
    obtain ⟨n, rfl⟩ : ∃ n, N = n + 1 := ⟨N - 1, by omega⟩
    have horb : orbitFrom (mandelStep ⟨2, 2⟩) 1 = ⟨2, 2⟩ := by
      show mandelStep ⟨2, 2⟩ Complex.zero = ⟨2, 2⟩
      simp [mandelStep, Complex.zero, Complex.mul_def, Complex.add_def]
    have hmag : (4 : ℚ) < Complex.magSq (orbitFrom (mandelStep ⟨2, 2⟩) 1) := by
      rw [horb]; norm_num [Complex.magSq]
    have hres : processMandelbrotR ⟨2, 2⟩ (n + 1) = .escaped 0 := by
      unfold processMandelbrotR
      rw [if_neg (by norm_num), if_neg (by norm_num)]
      rw [escapeLoop]
      rw [show mandelStep ⟨2, 2⟩ Complex.zero = orbitFrom (mandelStep ⟨2, 2⟩) 1 from rfl, horb]
      rw [if_pos (by norm_num [Complex.magSq] : (4 : ℚ) < Complex.magSq ⟨2, 2⟩)]
    refine ⟨hmag, ?_⟩
    unfold processMandelbrot
    rw [hres]; rfl

/-- C2 witness: the Mandelbrot escape instance `c = 2 + 2i` at a concrete
budget and gradient function. -/
theorem escape_colour_rule_witness :
    (4 : ℚ) < Complex.magSq (orbitFrom (mandelStep ⟨2, 2⟩) 1) ∧
    processMandelbrot (fun i n => ⟨i, n, 0⟩) ⟨2, 2⟩ 5 = ⟨0, 5, 0⟩ :=
  escape_colour_rule.2.2.2.2.2.2 (fun i n => ⟨i, n, 0⟩) 5 (by norm_num)

/-- C4: `processMandelbrot` returns the interior colour `BLACK` without
any orbit iteration (for every budget, including `0`) whenever `c`
satisfies the main-cardioid test `q·(q + (Re c − 0.25)) ≤ 0.25·(Im c)²`
with `q = (Re c − 0.25)² + (Im c)²`, or the period-2-bulb test
`(Re c + 1)² + (Im c)² ≤ 0.0625`; in particular `c = 0` and `c = −1`
short-circuit to the interior colour. -/
theorem mandelbrot_shortcircuit :
    (∀ (c : Complex) (N : Nat) (cg : Nat → Nat → colour),
        ((c.re - 1/4) * (c.re - 1/4) + c.im * c.im) *
            (((c.re - 1/4) * (c.re - 1/4) + c.im * c.im) + (c.re - 1/4)) ≤
            1/4 * (c.im * c.im) ∨
          (c.re + 1) * (c.re + 1) + c.im * c.im ≤ 1/16 →
        processMandelbrotR c N = .interior ∧ processMandelbrot cg c N = BLACK) ∧
    (∀ (N : Nat) (cg : Nat → Nat → colour),
        processMandelbrotR ⟨0, 0⟩ N = .interior ∧
        processMandelbrotR ⟨-1, 0⟩ N = .interior ∧
        processMandelbrot cg ⟨0, 0⟩ N = BLACK ∧
        processMandelbrot cg ⟨-1, 0⟩ N = BLACK) := by
  have hmain : ∀ (c : Complex) (N : Nat),
      ((c.re - 1/4) * (c.re - 1/4) + c.im * c.im) *
          (((c.re - 1/4) * (c.re - 1/4) + c.im * c.im) + (c.re - 1/4)) ≤
          1/4 * (c.im * c.im) ∨
        (c.re + 1) * (c.re + 1) + c.im * c.im ≤ 1/16 →
      processMandelbrotR c N = .interior := by
    intro c N h
    unfold processMandelbrotR
    rcases h with h | h
    · rw [if_pos h]
    · by_cases h1 : ((c.re - 1/4) * (c.re - 1/4) + c.im * c.im) *
          (((c.re - 1/4) * (c.re - 1/4) + c.im * c.im) + (c.re - 1/4)) ≤ 1/4 * (c.im * c.im)
      · rw [if_pos h1]
      · rw [if_neg h1, if_pos h]
  refine ⟨fun c N cg h => ?_, fun N cg => ?_⟩
  · refine ⟨hmain c N h, ?_⟩
    unfold processMandelbrot
    rw [hmain c N h]; rfl
  · have h0 : processMandelbrotR ⟨0, 0⟩ N = .interior :=
      hmain ⟨0, 0⟩ N (Or.inl (by norm_num))
    have h1 : processMandelbrotR ⟨-1, 0⟩ N = .interior :=
      hmain ⟨-1, 0⟩ N (Or.inr (by norm_num))
    refine ⟨h0, h1, ?_, ?_⟩
    · unfold processMandelbrot; rw [h0]; rfl
    · unfold processMandelbrot; rw [h1]; rfl

/-- C4 witness: the short-circuit applied at `c = 0` with the cardioid test
discharged concretely. -/
theorem mandelbrot_shortcircuit_witness :
    processMandelbrotR ⟨0, 0⟩ 100 = .interior ∧
    processMandelbrot (fun i n => ⟨i, n, 0⟩) ⟨0, 0⟩ 100 = BLACK :=
  mandelbrot_shortcircuit.1 ⟨0, 0⟩ 100 (fun i n => ⟨i, n, 0⟩) (Or.inl (by norm_num))

theorem checkPeriodicity_zero_right (z : Complex) :
    checkPeriodicity z Complex.zero = false := by
  have h : ¬ ((1 : ℚ) < PERIODICITY_EPSILON) := by norm_num [PERIODICITY_EPSILON]
  simp only [checkPeriodicity, Complex.zero, mul_zero, add_zero, zero_sub, abs_neg, abs_one]
  simp [h]

theorem checkPeriodicity_self (z : Complex)
    (h : |Complex.magSq z - 1| < PERIODICITY_EPSILON) :
    checkPeriodicity z z = true := by
  simp only [checkPeriodicity, Bool.and_eq_true, decide_eq_true_eq]
  refine ⟨⟨?_, ?_⟩, ?_⟩
  · simp [Complex.sub_def, Complex.magSq, PERIODICITY_EPSILON]
  · exact h
  · simp [PERIODICITY_EPSILON, mul_comm]

/-- The shared escape-time loop traversing the checkpoint-free window
`i ∈ [1, 19]` of a two-point orbit `a, b, a, b, …` with both points inside
the escape radius: the loop runs straight to the `i = 20` checkpoint. -/
theorem escapeLoop_cycle_seg (step : Complex → Complex) (a b : Complex)
    (hba : step a = b) (hcyc : step b = a)
    (hma : Complex.magSq a ≤ 4) (hmb : Complex.magSq b ≤ 4) (m : Nat) :
    ∀ d i, 1 ≤ i → i + d = 20 →
      escapeLoop step (m + 1 + d) i (if i % 2 = 0 then b else a) a =
      escapeLoop step (m + 1) 20 b a := by
  intro d
  induction d with
  | zero =>
    intro i h1 h2
    have hi : i = 20 := by omega
    subst hi
    norm_num
  | succ d ih =>
    intro i h1 h2
    rw [show m + 1 + (d + 1) = (m + 1 + d) + 1 from rfl]
    rw [escapeLoop]
    have hz' : step (if i % 2 = 0 then b else a) = (if (i + 1) % 2 = 0 then b else a) := by
      by_cases hp : i % 2 = 0
      · rw [if_pos hp, if_neg (by omega), hcyc]
      · rw [if_neg hp, if_pos (by omega), hba]
    rw [hz']
    have hmag : Complex.magSq (if (i + 1) % 2 = 0 then b else a) ≤ 4 := by
      by_cases hp : (i + 1) % 2 = 0
      · rw [if_pos hp]; exact hmb
      · rw [if_neg hp]; exact hma
    rw [if_neg (not_lt.2 hmag)]
    have hi20 : i % PERIODICITY_ITERATION = i :=
      Nat.mod_eq_of_lt (by unfold PERIODICITY_ITERATION; omega)
    rw [if_neg (show ¬ i % PERIODICITY_ITERATION = 0 by rw [hi20]; omega)]
    exact ih (i + 1) (by omega) (by omega)

/-- An orbit oscillating exactly between two in-radius points whose
dot-product deviation from `1` is below the epsilon is classified periodic
(interior) by the shared loop no later than the first real periodicity
checkpoint, for every budget that reaches it. -/
theorem escapeLoop_two_cycle (step : Complex → Complex) (N : Nat)
    (hcyc : step (step (step Complex.zero)) = step Complex.zero)
    (hma : Complex.magSq (step Complex.zero) ≤ 4)
    (hmb : Complex.magSq (step (step Complex.zero)) ≤ 4)
    (hdot : |Complex.magSq (step Complex.zero) - 1| < PERIODICITY_EPSILON)
    (hN : 21 ≤ N) :
    escapeLoop step N 0 Complex.zero Complex.zero = .interior := by
  obtain ⟨m, rfl⟩ : ∃ m, N = m + 21 := ⟨N - 21, by omega⟩
  set a := step Complex.zero with ha
  set b := step a with hb
  rw [show m + 21 = (m + 20) + 1 from rfl]
  rw [escapeLoop]
  rw [if_neg (not_lt.2 hma)]
  rw [if_pos (show (0 : Nat) % PERIODICITY_ITERATION = 0 by decide)]
  rw [checkPeriodicity_zero_right]
  rw [if_neg (by simp)]
  have hseg := escapeLoop_cycle_seg step a b hb.symm hcyc hma hmb m 19 1 (by omega) (by omega)
  norm_num at hseg
  rw [show m + 20 = m + 1 + 19 by omega, hseg]
  rw [escapeLoop]
  rw [hcyc]
  rw [if_neg (not_lt.2 hma)]
  rw [if_pos (show (20 : Nat) % PERIODICITY_ITERATION = 0 by decide)]
  rw [checkPeriodicity_self a hdot]
  rw [if_pos rfl]

/-- C6: `checkPeriodicity(z, prevZ)` returns true exactly when the squared
distance, the dot-product deviation from `1`, and the cross product are all
below the epsilon `1e-8`; and inside the Mandelbrot / Tricorn / Burning
Ship loops an orbit oscillating exactly between two in-radius points with
distance and dot deviation under epsilon is classified periodic (interior)
no later than the configured 20-iteration check interval (budget ≥ 21
reaches that checkpoint and returns interior there). -/
theorem periodicity_detector :
    (∀ z w : Complex, checkPeriodicity z w = true ↔
      (Complex.magSq (z - w) < PERIODICITY_EPSILON ∧
        |z.re * w.re + z.im * w.im - 1| < PERIODICITY_EPSILON ∧
        |z.re * w.im - z.im * w.re| < PERIODICITY_EPSILON)) ∧
    PERIODICITY_ITERATION = 20 ∧ PERIODICITY_EPSILON = 1 / 100000000 ∧
    (∀ (c : Complex) (N : Nat),
        mandelStep c (mandelStep c (mandelStep c Complex.zero)) = mandelStep c Complex.zero →
        Complex.magSq (mandelStep c Complex.zero) ≤ 4 →
        Complex.magSq (mandelStep c (mandelStep c Complex.zero)) ≤ 4 →
        |Complex.magSq (mandelStep c Complex.zero) - 1| < PERIODICITY_EPSILON →
        21 ≤ N → processMandelbrotR c N = .interior) ∧
    (∀ (c : Complex) (N : Nat),
        tricornStep c (tricornStep c (tricornStep c Complex.zero)) = tricornStep c Complex.zero →
        Complex.magSq (tricornStep c Complex.zero) ≤ 4 →
        Complex.magSq (tricornStep c (tricornStep c Complex.zero)) ≤ 4 →
        |Complex.magSq (tricornStep c Complex.zero) - 1| < PERIODICITY_EPSILON →
        21 ≤ N → processTricornR c N = .interior) ∧
    (∀ (c : Complex) (N : Nat),
        burningShipStep (Complex.conj c)
            (burningShipStep (Complex.conj c)
              (burningShipStep (Complex.conj c) Complex.zero)) =
          burningShipStep (Complex.conj c) Complex.zero →
        Complex.magSq (burningShipStep (Complex.conj c) Complex.zero) ≤ 4 →
        Complex.magSq
            (burningShipStep (Complex.conj c)
              (burningShipStep (Complex.conj c) Complex.zero)) ≤ 4 →
        |Complex.magSq (burningShipStep (Complex.conj c) Complex.zero) - 1| <
          PERIODICITY_EPSILON →
        21 ≤ N → processBurningShipR c N = .interior) := by
  refine ⟨?_, rfl, rfl, ?_, ?_, ?_⟩
  · intro z w
    simp [checkPeriodicity, Bool.and_eq_true, decide_eq_true_eq, and_assoc]
  · intro c N h1 h2 h3 h4 hN
    rcases processMandelbrotR_cases c N with hc | hc
    · exact hc
    · rw [hc]
      exact escapeLoop_two_cycle (mandelStep c) N h1 h2 h3 h4 hN
  · intro c N h1 h2 h3 h4 hN
    show escapeLoop (tricornStep c) N 0 Complex.zero Complex.zero = .interior
    exact escapeLoop_two_cycle (tricornStep c) N h1 h2 h3 h4 hN
  · intro c N h1 h2 h3 h4 hN
    show escapeLoop (burningShipStep (Complex.conj c)) N 0 Complex.zero Complex.zero = .interior
    exact escapeLoop_two_cycle (burningShipStep (Complex.conj c)) N h1 h2 h3 h4 hN

/-- C6 witness: the exact period-2 Tricorn orbit of `c = −1` (which
oscillates between `−1` and `0` with `|magSq(−1) − 1| = 0 < ε`) is
classified interior at budget 21, and the `checkPeriodicity`
characterisation evaluated at a concrete pair. -/
theorem periodicity_detector_witness :
    processTricornR ⟨-1, 0⟩ 21 = .interior ∧
    (checkPeriodicity ⟨1, 0⟩ ⟨1, 0⟩ = true ↔
      (Complex.magSq (Complex.mk 1 0 - Complex.mk 1 0) < PERIODICITY_EPSILON ∧
        |(1 : ℚ) * 1 + 0 * 0 - 1| < PERIODICITY_EPSILON ∧
        |(1 : ℚ) * 0 - 0 * 1| < PERIODICITY_EPSILON)) :=
  ⟨periodicity_detector.2.2.2.2.1 ⟨-1, 0⟩ 21
      (by norm_num [tricornStep, Complex.conj, Complex.zero, Complex.mul_def, Complex.add_def])
      (by norm_num [tricornStep, Complex.conj, Complex.zero, Complex.magSq,
        Complex.mul_def, Complex.add_def])
      (by norm_num [tricornStep, Complex.conj, Complex.zero, Complex.magSq,
        Complex.mul_def, Complex.add_def])
      (by norm_num [tricornStep, Complex.conj, Complex.zero, Complex.magSq,
        Complex.mul_def, Complex.add_def, PERIODICITY_EPSILON])
      (by norm_num),
    periodicity_detector.1 ⟨1, 0⟩ ⟨1, 0⟩⟩

/-- Length of a displayed trajectory as the claim describes it: the orbit
is truncated just after the first point whose squared magnitude exceeds
`4.0`, and is bounded by the budget `n`. -/
def firstEscapeLen (step : Complex → Complex) (n : Nat) : Nat :=
  match (List.range n).find? (fun i => decide (4 < Complex.magSq (orbitFrom step (i + 1)))) with
  | some i => i + 1
  | none => n

theorem bsTrajLoop_spec (c : Complex) :
    ∀ (fuel k : Nat),
      bsTrajLoop c fuel (orbitFrom (burningShipStep c) k) =
        (List.range (match (List.range fuel).find?
            (fun d => decide (4 < Complex.magSq (orbitFrom (burningShipStep c) (k + d + 1)))) with
          | some d => d + 1
          | none => fuel)).map
          (fun d => Complex.conj (orbitFrom (burningShipStep c) (k + d + 1))) := by
  intro fuel
  induction fuel with
  | zero => intro k; rfl
  | succ fuel ih =>
    intro k
    have hcons : ∀ L : Nat,
        (List.range (L + 1)).map
            (fun d => Complex.conj (orbitFrom (burningShipStep c) (k + d + 1))) =
          Complex.conj (orbitFrom (burningShipStep c) (k + 1)) ::
            (List.range L).map
              (fun d => Complex.conj (orbitFrom (burningShipStep c) (k + 1 + d + 1))) := by
      intro L
      rw [List.range_succ_eq_map, List.map_cons, List.map_map]
      congr 1
      apply List.map_congr_left
      intro e _
      simp only [Function.comp]
      rw [show k + Nat.succ e + 1 = k + 1 + e + 1 from by omega]
    rw [bsTrajLoop]
    rw [show burningShipStep c (orbitFrom (burningShipStep c) k) =
      orbitFrom (burningShipStep c) (k + 1) from rfl]
    rw [List.range_succ_eq_map]
    by_cases hesc : 4 < Complex.magSq (orbitFrom (burningShipStep c) (k + 1))
    · rw [if_pos hesc]
      rw [List.find?_cons_of_pos _ (by simp [hesc])]
      show _ = (List.range (0 + 1)).map
        (fun d => Complex.conj (orbitFrom (burningShipStep c) (k + d + 1)))
      rw [hcons 0]
      rfl
    · rw [if_neg hesc]
      rw [List.find?_cons_of_neg _ (by simp [hesc])]
      rw [List.find?_map]
      have hpred : ((fun d => decide
            (4 < Complex.magSq (orbitFrom (burningShipStep c) (k + d + 1)))) ∘ Nat.succ) =
          (fun d => decide
            (4 < Complex.magSq (orbitFrom (burningShipStep c) (k + 1 + d + 1)))) := by
        funext d
        simp only [Function.comp]
        rw [show k + Nat.succ d + 1 = k + 1 + d + 1 from by omega]
      rw [hpred, ih (k + 1)]
      cases hfind : (List.range fuel).find?
          (fun d => decide (4 < Complex.magSq (orbitFrom (burningShipStep c) (k + 1 + d + 1)))) with
      | none =>
        show _ = (List.range (fuel + 1)).map
          (fun d => Complex.conj (orbitFrom (burningShipStep c) (k + d + 1)))
        rw [hcons fuel]
      | some d =>
        show _ = (List.range ((d + 1) + 1)).map
          (fun d => Complex.conj (orbitFrom (burningShipStep c) (k + d + 1)))
        rw [hcons (d + 1)]

theorem firstEscapeLen_le (step : Complex → Complex) (n : Nat) :
    firstEscapeLen step n ≤ n := by
  unfold firstEscapeLen
  cases hf : (List.range n).find?
      (fun i => decide (4 < Complex.magSq (orbitFrom step (i + 1)))) with
  | none => exact Nat.le_refl n
  | some i =>
    have hmem : i ∈ List.range n := List.mem_of_find?_eq_some hf
    have : i < n := List.mem_range.1 hmem
    show i + 1 ≤ n
    omega

/-- C9: `processBurningShip` reflects `c` by conjugation once and then
iterates the absolute-component step, and `calcTrajectoryBurningShip` on
the same `c` produces exactly the conjugates of the successive points of
that reflected orbit, truncated just after the first point whose squared
magnitude exceeds `4.0`, with length bounded by the budget; a gradient
outcome of `processBurningShip` reports an actual first escape of the
reflected orbit. -/
theorem burning_ship_trajectory (c : Complex) (n : Nat) :
    calcTrajectoryBurningShip c n =
      (List.range (firstEscapeLen (burningShipStep (Complex.conj c)) n)).map
        (fun i => Complex.conj (orbitFrom (burningShipStep (Complex.conj c)) (i + 1))) ∧
    (calcTrajectoryBurningShip c n).length ≤ n ∧
    (∀ j, processBurningShipR c n = .escaped j →
      4 < Complex.magSq (orbitFrom (burningShipStep (Complex.conj c)) (j + 1)) ∧
      ∀ k, k < j → Complex.magSq (orbitFrom (burningShipStep (Complex.conj c)) (k + 1)) ≤ 4) := by
  have h := bsTrajLoop_spec (Complex.conj c) n 0
  simp only [Nat.zero_add] at h
  have heq : calcTrajectoryBurningShip c n =
      (List.range (firstEscapeLen (burningShipStep (Complex.conj c)) n)).map
        (fun i => Complex.conj (orbitFrom (burningShipStep (Complex.conj c)) (i + 1))) := by
    unfold calcTrajectoryBurningShip firstEscapeLen
    exact h
  refine ⟨heq, ?_, ?_⟩
  · rw [heq]
    simp only [List.length_map, List.length_range]
    exact firstEscapeLen_le _ n
  · intro j hj
    have h' := escapeLoop_escaped (burningShipStep (Complex.conj c)) n 0 Complex.zero j hj
    exact ⟨h'.2.2.1, fun k hk => h'.2.2.2 k (Nat.zero_le k) hk⟩

/-- C9 witness: the trajectory relation evaluated at `c = 3` (whose
reflected orbit escapes immediately) with budget `5`. -/
theorem burning_ship_trajectory_witness :
    calcTrajectoryBurningShip ⟨3, 0⟩ 5 =
      (List.range (firstEscapeLen (burningShipStep (Complex.conj ⟨3, 0⟩)) 5)).map
        (fun i => Complex.conj (orbitFrom (burningShipStep (Complex.conj ⟨3, 0⟩)) (i + 1))) ∧
    (calcTrajectoryBurningShip ⟨3, 0⟩ 5).length ≤ 5 ∧
    4 < Complex.magSq (orbitFrom (burningShipStep (Complex.conj ⟨3, 0⟩)) 1) := by
  have h := burning_ship_trajectory ⟨3, 0⟩ 5
  have hesc : processBurningShipR ⟨3, 0⟩ 5 = .escaped 0 := by
    show escapeLoop (burningShipStep (Complex.conj ⟨3, 0⟩)) (4 + 1) 0
      Complex.zero Complex.zero = .escaped 0
    rw [escapeLoop]
    rw [if_pos (by norm_num [burningShipStep, Complex.conj, Complex.zero,
      Complex.magSq, Complex.mul_def, Complex.add_def])]
  exact ⟨h.1, h.2.1, (h.2.2 0 hesc).1⟩

/-- Render-job snapshot of `FractalRenderer::beginAsyncRendering`.
`beginAsyncRendering` serialises jobs: before dispatching a new job it sets
`cancelRender` and waits on the previous `renderingTask`, so at most one
job ever writes `pixelDataBuffer` and the job history is sequential.  The
snapshot carries the render dimensions (`renderWidth`, `renderHeight`), the
captured per-pixel packed-colour function `f` (`fractalFuncCopy` composed
with `screenToFractal` and `SDL_MapRGB` at the captured parameters), the
worker count `T` (`hardware_concurrency`), whether the job observed
cancellation, and — for a cancelled job — how many pixels of its column
range each worker wrote before returning early. -/
structure Job where
  W : Nat
  H : Nat
  T : Nat
  f : Nat → Nat → Nat
  cancelled : Bool
  fuels : Nat → Nat

/-- Embedding of `pixelDataBuffer.resize(renderWidth * renderHeight, 0)`: contents kept
below the old size, zero-filled above it. -/
def resizeBuf (buf : Nat → Nat) (oldSize newSize : Nat) : Nat → Nat :=
  fun idx => if idx < newSize then (if idx < oldSize then buf idx else 0) else 0

/-- One lock-guarded buffer write
`pixelDataBuffer[y * renderWidth + x] = col`, with the source's bounds
guard `y < renderHeight && x < renderWidth`. -/
def writePix (W H : Nat) (f : Nat → Nat → Nat) (buf : Nat → Nat) (p : Nat × Nat) : Nat → Nat :=
  if p.1 < W ∧ p.2 < H then
    fun idx => if idx = p.2 * W + p.1 then f p.1 p.2 else buf idx
  else buf

/-- The pixel sequence of one worker's double loop: `x` from `startX` to
`endX` (the section), `y` from `0` to `renderHeight`, column-major. -/
def workerPix (H : Nat) (sec : Nat × Nat) : List (Nat × Nat) :=
  (List.range (sec.2 - sec.1)).flatMap (fun dx => (List.range H).map (fun y => (sec.1 + dx, y)))

/-- A worker's effect on the shared buffer.  The per-write lock
(`renderMutex`) serialises writes; distinct workers target disjoint column
ranges (and any index collision writes the identical snapshot value), so
running workers in order is an adequate serialisation. -/
def runWorker (W H : Nat) (f : Nat → Nat → Nat) (buf : Nat → Nat)
    (pix : List (Nat × Nat)) : Nat → Nat :=
  pix.foldl (writePix W H f) buf

/-- Column section of worker `i`:
`startX = i * sectionWidth`, `endX = (i+1) * sectionWidth`, the last worker
extending to `renderWidth` (`sectionWidth = renderWidth / numThreads`). -/
def workerSection (W T i : Nat) : Nat × Nat :=
  (i * (W / T), if i = T - 1 then W else (i + 1) * (W / T))

/-- All workers of a job in sequence; a cancelled job's worker `i` stops
after `fuels i` pixel iterations (the point where it observed
`cancelRender`), a completed job's workers traverse their full range. -/
def runWorkers (j : Job) (buf : Nat → Nat) : Nat → Nat :=
  (List.range j.T).foldl
    (fun b i =>
      runWorker j.W j.H j.f b
        (if j.cancelled then (workerPix j.H (workerSection j.W j.T i)).take (j.fuels i)
         else workerPix j.H (workerSection j.W j.T i)))
    buf

/-- Scheduler state: the shared `pixelDataBuffer` (with its size) and the
displayed texture `fractalTexture` (size and contents), `none` before any
frame was published. -/
structure RState where
  bufSize : Nat
  buf : Nat → Nat
  disp : Option (Nat × (Nat → Nat))

/-- One job pass of `beginAsyncRendering`: resize the shared buffer, run
the workers, then — only if cancellation never fired — copy the buffer
into the texture and swap it into `fractalTexture` (`if (cancelRender)
return;` discards the partially written buffer with no swap). -/
def runJob (s : RState) (j : Job) : RState :=
  let n := j.W * j.H
  let buf1 := runWorkers j (resizeBuf s.buf s.bufSize n)
  if j.cancelled then { bufSize := n, buf := buf1, disp := s.disp }
  else { bufSize := n, buf := buf1, disp := some (n, buf1) }

/-- A sequence of render jobs (the model of successive
`beginAsyncRendering` calls, already serialised by cancel-and-wait). -/
def runJobs (s : RState) (js : List Job) : RState := js.foldl runJob s

theorem pixel_index_unique {W x x' y y' : Nat} (hx : x < W) (hx' : x' < W)
    (h : y * W + x = y' * W + x') : x = x' ∧ y = y' := by
  have hW : 0 < W := Nat.lt_of_le_of_lt (Nat.zero_le x) hx
  have hmx : (y * W + x) % W = x := by
    rw [Nat.add_comm, Nat.add_mul_mod_self_right]
    exact Nat.mod_eq_of_lt hx
  have hmx' : (y' * W + x') % W = x' := by
    rw [Nat.add_comm, Nat.add_mul_mod_self_right]
    exact Nat.mod_eq_of_lt hx'
  have hxx : x = x' := by rw [← hmx, ← hmx', h]
  refine ⟨hxx, ?_⟩
  have : y * W = y' * W := by omega
  exact Nat.eq_of_mul_eq_mul_right hW this

theorem runWorker_eval (W H : Nat) (f : Nat → Nat → Nat) :
    ∀ (pix : List (Nat × Nat)), (∀ p ∈ pix, p.1 < W ∧ p.2 < H) →
      ∀ (buf : Nat → Nat) (x y : Nat), x < W → y < H →
        runWorker W H f buf pix (y * W + x) =
          if (x, y) ∈ pix then f x y else buf (y * W + x) := by
  intro pix
  induction pix with
  | nil => intro _ buf x y _ _; simp [runWorker]
  | cons p rest ih =>
    intro hvalid buf x y hx hy
    have hp := hvalid p (List.mem_cons_self p rest)
    have hstep : runWorker W H f buf (p :: rest) = runWorker W H f (writePix W H f buf p) rest := by
      simp [runWorker]
    rw [hstep, ih (fun q hq => hvalid q (List.mem_cons_of_mem p hq)) _ x y hx hy]
    by_cases hmem : (x, y) ∈ rest
    · rw [if_pos hmem, if_pos (List.mem_cons_of_mem p hmem)]
    · rw [if_neg hmem]
      by_cases hpxy : p = (x, y)
      · subst hpxy
        rw [if_pos (List.mem_cons_self _ _)]
        unfold writePix
        rw [if_pos hp, if_pos rfl]
      · have hne : ¬ (x, y) ∈ p :: rest := by
          intro hin
          rcases List.mem_cons.1 hin with heq | hin'
          · exact hpxy heq.symm
          · exact hmem hin'
        rw [if_neg hne]
        unfold writePix
        rw [if_pos hp]
        have hidx : ¬ (y * W + x = p.2 * W + p.1) := by
          intro he
          have := pixel_index_unique hx hp.1 he
          exact hpxy (Prod.ext this.1.symm this.2.symm)
        rw [if_neg hidx]

theorem mem_workerPix {H : Nat} {sec : Nat × Nat} {x y : Nat} :
    (x, y) ∈ workerPix H sec ↔ (sec.1 ≤ x ∧ x < sec.2 ∧ y < H) := by
  unfold workerPix
  simp only [List.mem_flatMap, List.mem_map, List.mem_range, Prod.mk.injEq]
  constructor
  · rintro ⟨dx, hdx, y', hy', hxeq, hyeq⟩
    omega
  · rintro ⟨h1, h2, h3⟩
    exact ⟨x - sec.1, by omega, y, h3, by omega, rfl⟩

theorem workerPix_valid {W T H : Nat} (i : Nat) (hi : i < T) :
    ∀ p ∈ workerPix H (workerSection W T i), p.1 < W ∧ p.2 < H := by
  rintro ⟨x, y⟩ hp
  rcases mem_workerPix.1 hp with ⟨h1, h2, h3⟩
  refine ⟨?_, h3⟩
  have hend : (workerSection W T i).2 ≤ W := by
    unfold workerSection
    dsimp only
    split_ifs with h
    · exact Nat.le_refl W
    · calc (i + 1) * (W / T) ≤ T * (W / T) := Nat.mul_le_mul_right _ (by omega)
        _ ≤ W := by rw [Nat.mul_comm]; exact Nat.div_mul_le_self W T
  omega

theorem section_cover (W T x : Nat) (hT : 1 ≤ T) (hx : x < W) :
    ∃ i, i < T ∧ (workerSection W T i).1 ≤ x ∧ x < (workerSection W T i).2 := by
  by_cases hsw : W / T = 0
  · refine ⟨T - 1, by omega, ?_, ?_⟩
    · show (T - 1) * (W / T) ≤ x
      rw [hsw, Nat.mul_zero]
      exact Nat.zero_le x
    · show x < (workerSection W T (T - 1)).2
      unfold workerSection
      dsimp only
      rw [if_pos rfl]
      exact hx
  · by_cases hbig : T - 1 ≤ x / (W / T)
    · refine ⟨T - 1, by omega, ?_, ?_⟩
      · show (T - 1) * (W / T) ≤ x
        calc (T - 1) * (W / T) ≤ x / (W / T) * (W / T) := Nat.mul_le_mul_right _ hbig
          _ ≤ x := Nat.div_mul_le_self x (W / T)
      · show x < (workerSection W T (T - 1)).2
        unfold workerSection
        dsimp only
        rw [if_pos rfl]
        exact hx
    · push_neg at hbig
      refine ⟨x / (W / T), by omega, ?_, ?_⟩
      · exact Nat.div_mul_le_self x (W / T)
      · show x < (workerSection W T (x / (W / T))).2
        unfold workerSection
        dsimp only
        rw [if_neg (show ¬ x / (W / T) = T - 1 by omega)]
        have hdm := Nat.div_add_mod x (W / T)
        have hml : x % (W / T) < W / T := Nat.mod_lt x (Nat.pos_of_ne_zero hsw)
        have hsucc : (x / (W / T) + 1) * (W / T) = x / (W / T) * (W / T) + W / T :=
          Nat.succ_mul _ _
        have hcomm : (W / T) * (x / (W / T)) = x / (W / T) * (W / T) := Nat.mul_comm _ _
        rw [hcomm] at hdm
        generalize hg1 : x / (W / T) * (W / T) = A at hsucc hdm
        generalize hg2 : (x / (W / T) + 1) * (W / T) = B at hsucc ⊢
        omega

theorem foldWorkers_eval (W H : Nat) (f : Nat → Nat → Nat) (T : Nat) :
    ∀ (L : List Nat), (∀ i ∈ L, i < T) →
      ∀ (buf : Nat → Nat) (x y : Nat), x < W → y < H →
      (L.foldl (fun b i => runWorker W H f b (workerPix H (workerSection W T i))) buf)
          (y * W + x) =
        if ∃ i ∈ L, (workerSection W T i).1 ≤ x ∧ x < (workerSection W T i).2 then f x y
        else buf (y * W + x) := by
  intro L
  induction L with
  | nil => intro _ buf x y _ _; simp
  | cons i L ih =>
    intro hLT buf x y hx hy
    rw [List.foldl_cons,
      ih (fun q hq => hLT q (List.mem_cons_of_mem i hq)) _ x y hx hy]
    by_cases hex : ∃ i' ∈ L, (workerSection W T i').1 ≤ x ∧ x < (workerSection W T i').2
    · rw [if_pos hex]
      rcases hex with ⟨i', hi', hc⟩
      rw [if_pos ⟨i', List.mem_cons_of_mem i hi', hc⟩]
    · rw [if_neg hex]
      rw [runWorker_eval W H f _
        (workerPix_valid i (hLT i (List.mem_cons_self i L))) buf x y hx hy]
      by_cases hin : (workerSection W T i).1 ≤ x ∧ x < (workerSection W T i).2
      · rw [if_pos (mem_workerPix.2 ⟨hin.1, hin.2, hy⟩),
          if_pos ⟨i, List.mem_cons_self i L, hin⟩]
      · rw [if_neg (fun hmem => hin ⟨(mem_workerPix.1 hmem).1, (mem_workerPix.1 hmem).2.1⟩)]
        rw [if_neg (fun hexc => ?_)]
        rcases hexc with ⟨i', hi', hc⟩
        rcases List.mem_cons.1 hi' with rfl | hi''
        · exact hin hc
        · exact hex ⟨i', hi'', hc⟩

/-- A job that ran to completion wrote every pixel of the frame: the
buffer afterwards holds the snapshot colour at every valid coordinate,
independently of leftover contents from earlier (cancelled) jobs. -/
theorem runWorkers_complete (j : Job) (hT : 1 ≤ j.T) (hnc : j.cancelled = false)
    (buf : Nat → Nat) (x y : Nat) (hx : x < j.W) (hy : y < j.H) :
    runWorkers j buf (y * j.W + x) = j.f x y := by
  unfold runWorkers
  simp only [hnc, Bool.false_eq_true, if_false]
  rw [foldWorkers_eval j.W j.H j.f j.T (List.range j.T)
    (fun i hi => List.mem_range.1 hi) buf x y hx hy]
  obtain ⟨i, hiT, hc1, hc2⟩ := section_cover j.W j.T x hT hx
  rw [if_pos ⟨i, List.mem_range.2 hiT, hc1, hc2⟩]

/-- Displayed-frame invariant over any serialised job history: the
displayed texture is either still the initial one, or it is the full frame
of some completed (never-cancelled) job of the history. -/
theorem runJobs_disp (js : List Job) : ∀ s : RState, (∀ j ∈ js, 1 ≤ j.T) →
    (runJobs s js).disp = s.disp ∨
    ∃ j ∈ js, j.cancelled = false ∧ ∃ d, (runJobs s js).disp = some (j.W * j.H, d) ∧
      ∀ x y, x < j.W → y < j.H → d (y * j.W + x) = j.f x y := by
  induction js with
  | nil => intro s _; exact Or.inl rfl
  | cons j js ih =>
    intro s hT
    have hstep : runJobs s (j :: js) = runJobs (runJob s j) js := rfl
    rcases ih (runJob s j) (fun q hq => hT q (List.mem_cons_of_mem j hq)) with h | h
    · by_cases hc : j.cancelled
      · left
        rw [hstep, h]
        unfold runJob
        dsimp only
        rw [if_pos hc]
      · have hcf : j.cancelled = false := Bool.eq_false_iff.2 hc
        refine Or.inr ⟨j, List.mem_cons_self j js, hcf,
          runWorkers j (resizeBuf s.buf s.bufSize (j.W * j.H)), ?_, ?_⟩
        · rw [hstep, h]
          unfold runJob
          dsimp only
          rw [if_neg hc]
        · intro x y hx hy
          exact runWorkers_complete j (hT j (List.mem_cons_self j js)) hcf _ x y hx hy
    · rcases h with ⟨q, hq, hqc, d, hdisp, hframe⟩
      exact Or.inr ⟨q, List.mem_cons_of_mem j hq, hqc, d, hstep ▸ hdisp, hframe⟩

/-- C1: a job that observes cancellation publishes nothing — no texture
swap happens and the displayed frame is untouched — and after any
serialised history of render jobs started from an empty display, a
displayed frame is wholly the output of exactly one completed job: every
one of its pixels carries that single job's snapshot colour, with no pixel
from any cancelled (or other) job mixed in. -/
theorem displayed_frame_single_job (js : List Job) (s : RState)
    (hT : ∀ j ∈ js, 1 ≤ j.T) (hd : s.disp = none) :
    (∀ (s' : RState) (j : Job), j.cancelled = true → (runJob s' j).disp = s'.disp) ∧
    (∀ n d, (runJobs s js).disp = some (n, d) →
      ∃ j ∈ js, j.cancelled = false ∧ n = j.W * j.H ∧
        ∀ x y, x < j.W → y < j.H → d (y * j.W + x) = j.f x y) := by
  refine ⟨?_, ?_⟩
  · intro s' j hc
    unfold runJob
    dsimp only
    rw [if_pos hc]
  · intro n d hdisp
    rcases runJobs_disp js s hT with h | h
    · rw [h, hd] at hdisp
      exact absurd hdisp (by simp)
    · rcases h with ⟨j, hj, hjc, d', hd', hframe⟩
      rw [hdisp] at hd'
      injection hd' with h'
      have hn : n = j.W * j.H := congrArg Prod.fst h'
      have hdd : d = d' := congrArg Prod.snd h'
      refine ⟨j, hj, hjc, hn, ?_⟩
      intro x y hx hy
      rw [hdd]
      exact hframe x y hx hy

/-- C1 witness: a single completed 2×1-pixel job published from an empty
display; the displayed pixel `(1, 0)` carries that job's colour. -/
theorem displayed_frame_single_job_witness :
    runWorkers (Job.mk 2 1 1 (fun x y => x + 10 * y) false (fun _ => 0))
      (resizeBuf (fun _ => 0) 0 2) (0 * 2 + 1) = 1 := by
  have h := (displayed_frame_single_job
      [Job.mk 2 1 1 (fun x y => x + 10 * y) false (fun _ => 0)]
      ⟨0, fun _ => 0, none⟩
      (by
        intro j hj
        rw [List.mem_singleton] at hj
        subst hj
        exact Nat.le_refl 1)
      rfl).2 2
      (runWorkers (Job.mk 2 1 1 (fun x y => x + 10 * y) false (fun _ => 0))
        (resizeBuf (fun _ => 0) 0 2))
      rfl
  rcases h with ⟨j, hj, _, _, hframe⟩
  rw [List.mem_singleton] at hj
  subst hj
  exact hframe 1 0 (by decide) (by decide)

end CFR
